import Mathlib

/-!
Shallow embedding of the poorentropy crate (src/lib.rs, src/iter.rs).

Machine integers are modelled as Nat with explicit reduction modulo 2^64
where the Rust code wraps.  The hardware counter is nondeterministic from
the program viewpoint, so it is modelled as a stream of values carried by
an explicit world state; the process-wide atomic counter is a second field
of the same world.  Fallible operations (array indexing that can panic)
return Option.
-/

set_option maxHeartbeats 1000000
set_option maxRecDepth 4000

/-- The modulus of u64 arithmetic. -/
def U64 : Nat := 2 ^ 64

/-- The ambient state that the entropy primitives interact with: the stream
of hardware-counter values observed by successive reads, the number of reads
performed so far, and the process-wide atomic counter. -/
structure World where
  cpuStream : Nat → Nat
  reads : Nat
  counter : Nat

/-- Architecture-specific read of the hardware cycle counter
(src/lib.rs, the five cpu_counter variants).  The value read is outside the
program control; the model draws it from the world read stream. -/
def cpu_counter (w : World) : Nat × World :=
  (w.cpuStream w.reads % U64, { w with reads := w.reads + 1 })

/-- internal_counter (src/lib.rs): COUNTER.fetch_add(1, SeqCst) on a
process-wide AtomicU64 initialized to 0; returns the old value and wraps
on overflow. -/
def internal_counter (w : World) : Nat × World :=
  (w.counter % U64, { w with counter := (w.counter + 1) % U64 })

/-- split_mix_64 (src/lib.rs): the SplitMix64 finalization step, with
wrapping add and wrapping multiplications. -/
def split_mix_64 (state : Nat) : Nat :=
  let z1 := (state + 0x9e3779b97f4a7c15) % U64
  let z2 := ((z1 ^^^ (z1 >>> 30)) * 0xbf58476d1ce4e5b9) % U64
  let z3 := ((z2 ^^^ (z2 >>> 27)) * 0x94d049bb133111eb) % U64
  z3 ^^^ (z3 >>> 31)

/-- get (src/lib.rs): cpu_counter().wrapping_add(internal_counter()) fed
into split_mix_64. -/
def get (w : World) : Nat × World :=
  let c := cpu_counter w
  let i := internal_counter c.2
  (split_mix_64 ((c.1 + i.1) % U64), i.2)

/-- u64::to_le_bytes: the 8 little-endian bytes of a 64-bit value, as a
list (byte i is bits 8i..8i+8). -/
def toLeBytes (x : Nat) : List Nat :=
  (List.range 8).map (fun i => x / 2 ^ (8 * i) % 256)

/-- fill (src/lib.rs): repeatedly draw get() and copy its little-endian
bytes into the front of the buffer until the buffer is exhausted; the last
chunk is truncated to the bytes that remain.  Returns the written bytes and
the final world. -/
def fill (buf : List Nat) (w : World) : List Nat × World :=
  if buf.isEmpty then ([], w)
  else
    let p := get w
    let ent := toLeBytes p.1
    let len := min ent.length buf.length
    let rest := fill (buf.drop len) p.2
    (ent.take len ++ rest.1, rest.2)
termination_by buf.length
decreasing_by
  simp only [List.length_drop, toLeBytes, List.length_map, List.length_range]
  rename_i h
  simp only [List.isEmpty_iff] at h
  have hpos : 0 < buf.length := List.length_pos.mpr h
  omega

/-- u64::to_le_bytes viewed as the content of the 8-byte array
(byte i is bits 8i..8i+8). -/
def leBuf (x : Nat) : Fin 8 → Nat :=
  fun i => x / 2 ^ (8 * i.val) % 256

/-- The Bytes iterator state (src/iter.rs): an 8-byte buffer and a
position. -/
structure Bytes where
  buf : Fin 8 → Nat
  pos : Nat

/-- Bytes::default(): zeroed buffer, position 0. -/
def Bytes.default : Bytes :=
  { buf := fun _ => 0, pos := 0 }

/-- Bytes::clone (src/iter.rs): deliberately returns a fresh default
instance instead of copying the state. -/
def Bytes.clone (_b : Bytes) : Bytes :=
  Bytes.default

/-- Bytes::next (src/iter.rs): refill the buffer from get() when the
position is 0, return the buffer byte at the old position, advance the
position with a mask by 7.  The array indexing panics when the position is
out of bounds; the panic is modelled as none. -/
def Bytes.next (b : Bytes) (w : World) : Option (Nat × Bytes × World) :=
  let r := if b.pos = 0 then (leBuf (get w).1, (get w).2) else (b.buf, w)
  if h : b.pos < 8 then
    some (r.1 ⟨b.pos, h⟩, { buf := r.1, pos := (b.pos + 1) &&& 7 }, r.2)
  else
    none

/-- Bytes::nth (src/iter.rs): ignores its argument and delegates to
next(). -/
def Bytes.nth (b : Bytes) (_n : Nat) (w : World) : Option (Nat × Bytes × World) :=
  b.next w

/-- n+1 sequential single-byte advances, returning the last byte drawn and
the final state: what the default Iterator::nth implementation performs. -/
def Bytes.advance (b : Bytes) (w : World) : Nat → Option (Nat × Bytes × World)
  | 0 => b.next w
  | n + 1 =>
    match b.next w with
    | none => none
    | some (_, b2, w2) => Bytes.advance b2 w2 n

/-- The world used to instantiate universally quantified results on a
concrete input: hardware counter stuck at 0, no reads yet, process counter
at its initial value 0. -/
def w0 : World :=
  { cpuStream := fun _ => 0, reads := 0, counter := 0 }

/-- A Bytes state in the middle of a buffer: position 1 with buffer bytes
0, 10, 20, ..., 70. -/
def bMid : Bytes :=
  { buf := fun i => 10 * i.val, pos := 1 }

/-- The mixing formula exactly as the specification states it (section 4.3):
add 0x9e3779b97f4a7c15 with wraparound, two rounds of xor-right-shift then
wrapping multiply with constants 0xbf58476d1ce4e5b9 (shift 30) and
0x94d049bb133111eb (shift 27), then a final xor-right-shift by 31. -/
def mixSpec (x : Nat) : Nat :=
  ((((x + 0x9e3779b97f4a7c15) % U64
      ^^^ (((x + 0x9e3779b97f4a7c15) % U64) >>> 30)) * 0xbf58476d1ce4e5b9 % U64
      ^^^ ((((x + 0x9e3779b97f4a7c15) % U64
        ^^^ (((x + 0x9e3779b97f4a7c15) % U64) >>> 30)) * 0xbf58476d1ce4e5b9 % U64) >>> 27))
        * 0x94d049bb133111eb % U64)
  ^^^ (((((x + 0x9e3779b97f4a7c15) % U64
      ^^^ (((x + 0x9e3779b97f4a7c15) % U64) >>> 30)) * 0xbf58476d1ce4e5b9 % U64
      ^^^ ((((x + 0x9e3779b97f4a7c15) % U64
        ^^^ (((x + 0x9e3779b97f4a7c15) % U64) >>> 30)) * 0xbf58476d1ce4e5b9 % U64) >>> 27))
        * 0x94d049bb133111eb % U64) >>> 31)

/-- The concatenation of the little-endian byte groups of k successive
get() draws starting from world w. -/
def leStream (w : World) : Nat → List Nat
  | 0 => []
  | k + 1 => toLeBytes (get w).1 ++ leStream (get w).2 k

/-- n successive internal_counter() calls starting from world w. -/
def counterIter (w : World) : Nat → World
  | 0 => w
  | n + 1 => (internal_counter (counterIter w n)).2

/-- The value returned by the k-th internal_counter() call (k counted from
1) in a sequential run starting from world w. -/
def callValue (w : World) (k : Nat) : Nat :=
  (internal_counter (counterIter w (k - 1))).1

/-! ### Helper lemmas -/

/-- The xorshift step t XOR (t >>> k) is injective for every positive
shift k. -/
theorem xs_inj (k : Nat) (hk : 0 < k) (x y : Nat)
    (h : x ^^^ (x >>> k) = y ^^^ (y >>> k)) : x = y := by
  have h2 : (x ^^^ y) >>> k = (x >>> k) ^^^ (y >>> k) := by
    apply Nat.eq_of_testBit_eq
    intro i
    simp [Nat.testBit_shiftRight, Nat.testBit_xor]
  have hd : (x ^^^ y) >>> k = x ^^^ y := by
    rw [h2]
    calc (x >>> k) ^^^ (y >>> k)
        = (x ^^^ (x >>> k)) ^^^ (x ^^^ (y >>> k)) := by
          rw [Nat.xor_comm x (x >>> k), Nat.xor_assoc]
          rw [← Nat.xor_assoc x x, Nat.xor_self, Nat.zero_xor]
      _ = (y ^^^ (y >>> k)) ^^^ (x ^^^ (y >>> k)) := by rw [h]
      _ = x ^^^ y := by
          rw [Nat.xor_comm x (y >>> k), ← Nat.xor_assoc]
          rw [Nat.xor_assoc y (y >>> k) (y >>> k), Nat.xor_self, Nat.xor_zero]
          rw [Nat.xor_comm y x]
  have hzero : x ^^^ y = 0 := by
    rw [Nat.shiftRight_eq_div_pow] at hd
    rcases Nat.eq_zero_or_pos (x ^^^ y) with h0 | h0
    · exact h0
    · have hlt : (x ^^^ y) / 2 ^ k < x ^^^ y := Nat.div_lt_self h0 (by
        have : (2:Nat) ^ 1 ≤ 2 ^ k := Nat.pow_le_pow_right (by omega) hk
        omega)
      omega
  exact Nat.xor_eq_zero.mp hzero

/-- Wrapping addition of a constant is injective on 64-bit words. -/
theorem addc_inj (c x y : Nat) (hx : x < U64) (hy : y < U64)
    (h : (x + c) % U64 = (y + c) % U64) : x = y := by
  simp only [U64] at *
  omega

/-- Wrapping multiplication by an odd constant is injective on 64-bit
words. -/
theorem mulc_inj (c x y : Nat) (hc : ¬ 2 ∣ c) (hx : x < U64) (hy : y < U64)
    (h : (x * c) % U64 = (y * c) % U64) : x = y := by
  have h2 : Nat.Coprime 2 c := (Nat.Prime.coprime_iff_not_dvd Nat.prime_two).mpr hc
  have hcop : Nat.Coprime (2 ^ 64) c := h2.pow_left 64
  have hmod : c * x ≡ c * y [MOD U64] := by
    unfold Nat.ModEq
    rw [Nat.mul_comm c x, Nat.mul_comm c y]
    exact h
  have hxy : x % U64 = y % U64 := Nat.ModEq.cancel_left_of_coprime hcop hmod
  rw [Nat.mod_eq_of_lt hx, Nat.mod_eq_of_lt hy] at hxy
  exact hxy

/-- The xorshift step stays below 2^64. -/
theorem xs_lt (t k : Nat) (ht : t < U64) : t ^^^ (t >>> k) < U64 := by
  have h1 : t >>> k < U64 := by
    rw [Nat.shiftRight_eq_div_pow]
    exact lt_of_le_of_lt (Nat.div_le_self t (2 ^ k)) ht
  exact Nat.xor_lt_two_pow ht h1

/-- split_mix_64 is injective on 64-bit words. -/
theorem split_mix_64_inj (x y : Nat) (hx : x < U64) (hy : y < U64)
    (h : split_mix_64 x = split_mix_64 y) : x = y := by
  simp only [split_mix_64] at h
  have hU : 0 < U64 := by simp [U64]
  have h3 := xs_inj 31 (by omega) _ _ h
  have h2 := mulc_inj 0x94d049bb133111eb _ _ (by decide)
    (xs_lt _ _ (Nat.mod_lt _ hU)) (xs_lt _ _ (Nat.mod_lt _ hU)) h3
  have h2b := xs_inj 27 (by omega) _ _ h2
  have h1 := mulc_inj 0xbf58476d1ce4e5b9 _ _ (by decide)
    (xs_lt _ _ (Nat.mod_lt _ hU)) (xs_lt _ _ (Nat.mod_lt _ hU)) h2b
  have h1b := xs_inj 30 (by omega) _ _ h1
  exact addc_inj _ _ _ hx hy h1b

/-- split_mix_64 maps 64-bit words to 64-bit words. -/
theorem split_mix_64_lt (x : Nat) : split_mix_64 x < U64 := by
  have hU : 0 < U64 := by simp [U64]
  simp only [split_mix_64]
  exact xs_lt _ _ (Nat.mod_lt _ hU)

/-- split_mix_64 restricted to 64-bit words reaches every 64-bit word,
because an injective self-map of a finite type is surjective. -/
theorem split_mix_64_surj (y : Nat) (hy : y < U64) :
    ∃ z, z < U64 ∧ split_mix_64 z = y := by
  have hinj : Function.Injective
      (fun a : Fin U64 => (⟨split_mix_64 a.val, split_mix_64_lt a.val⟩ : Fin U64)) := by
    intro a b hab
    exact Fin.ext (split_mix_64_inj a.val b.val a.isLt b.isLt (congrArg Fin.val hab))
  have hsurj := Finite.surjective_of_injective hinj
  obtain ⟨a, ha⟩ := hsurj ⟨y, hy⟩
  exact ⟨a.val, a.isLt, congrArg Fin.val ha⟩

/-- Masking with 7 is reduction modulo 8. -/
theorem land7_eq_mod8 (n : Nat) : n &&& 7 = n % 8 := by
  simpa using Nat.and_pow_two_sub_one_eq_mod n 3

/-- A 64-bit value always yields exactly 8 little-endian bytes. -/
theorem toLeBytes_length (x : Nat) : (toLeBytes x).length = 8 := by
  simp [toLeBytes]

/-- fill on the empty buffer returns immediately with the world
untouched. -/
theorem fill_eq_empty (w : World) : fill [] w = ([], w) := by
  rw [fill]
  simp

/-- One unfolding of the fill loop on a nonempty buffer. -/
theorem fill_eq_cons (buf : List Nat) (w : World) (h : buf ≠ []) :
    fill buf w =
      ((toLeBytes (get w).1).take (min 8 buf.length)
          ++ (fill (buf.drop (min 8 buf.length)) (get w).2).1,
       (fill (buf.drop (min 8 buf.length)) (get w).2).2) := by
  conv_lhs => rw [fill]
  simp [h, toLeBytes_length]

/-- The world after one get() has its read count advanced by one. -/
theorem get_reads (w : World) : (get w).2.reads = w.reads + 1 := rfl

/-- fill writes exactly as many bytes as the buffer holds and draws get()
exactly ceil(L/8) times, observable as the world read count. -/
theorem fill_len_reads (L : Nat) : ∀ buf w, buf.length = L →
    (fill buf w).1.length = L ∧ (fill buf w).2.reads = w.reads + (L + 7) / 8 := by
  induction L using Nat.strong_induction_on with
  | _ L ih =>
    intro buf w hL
    subst hL
    rcases Nat.eq_zero_or_pos buf.length with h0 | h0
    · have hb : buf = [] := List.length_eq_zero.mp h0
      subst hb
      simp [fill_eq_empty]
    · have hb : buf ≠ [] := by
        intro hh
        subst hh
        simp at h0
      rw [fill_eq_cons buf w hb]
      have hlen8 : (toLeBytes (get w).1).length = 8 := toLeBytes_length _
      have hrec := ih (buf.drop (min 8 buf.length)).length
        (by simp [List.length_drop]; omega)
        (buf.drop (min 8 buf.length)) (get w).2 rfl
      have hd : (buf.drop (min 8 buf.length)).length = buf.length - min 8 buf.length := by
        simp [List.length_drop]
      constructor
      · simp only [List.length_append, List.length_take, hlen8, hrec.1, hd]
        omega
      · simp only [hrec.2, get_reads, hd]
        omega

/-- The bytes written by fill are the first L bytes of the concatenation of
the little-endian byte groups of the successive get() draws. -/
theorem fill_content (L : Nat) : ∀ buf w, buf.length = L →
    (fill buf w).1 = (leStream w ((L + 7) / 8)).take L := by
  induction L using Nat.strong_induction_on with
  | _ L ih =>
    intro buf w hL
    subst hL
    rcases Nat.eq_zero_or_pos buf.length with h0 | h0
    · have hb : buf = [] := List.length_eq_zero.mp h0
      subst hb
      simp [fill_eq_empty]
    · have hb : buf ≠ [] := by
        intro hh
        subst hh
        simp at h0
      rw [fill_eq_cons buf w hb]
      have hlen8 : (toLeBytes (get w).1).length = 8 := toLeBytes_length _
      have hd : (buf.drop (min 8 buf.length)).length = buf.length - min 8 buf.length := by
        simp [List.length_drop]
      have hrec := ih (buf.drop (min 8 buf.length)).length
        (by simp [List.length_drop]; omega)
        (buf.drop (min 8 buf.length)) (get w).2 rfl
      have hsplit : (buf.length + 7) / 8 = (buf.length - min 8 buf.length + 7) / 8 + 1 := by
        omega
      rw [hsplit]
      show (toLeBytes (get w).1).take (min 8 buf.length)
          ++ (fill (buf.drop (min 8 buf.length)) (get w).2).1
        = (toLeBytes (get w).1
            ++ leStream (get w).2 ((buf.length - min 8 buf.length + 7) / 8)).take buf.length
      rw [List.take_append_eq_append_take, hrec, hd]
      congr 1
      · rcases Nat.lt_or_ge buf.length 8 with hc | hc
        · have : min 8 buf.length = buf.length := by omega
          rw [this]
        · have h1 : min 8 buf.length = 8 := by omega
          rw [h1, List.take_of_length_le (by omega), List.take_of_length_le (by omega)]
      · congr 1
        omega

/-- After n internal_counter() calls from a zeroed counter the stored
counter is n mod 2^64. -/
theorem counterIter_counter (w : World) (hw : w.counter = 0) (n : Nat) :
    (counterIter w n).counter = n % U64 := by
  induction n with
  | zero => simpa [counterIter] using hw
  | succ n ihn =>
    simp only [counterIter, internal_counter, ihn]
    simp only [U64]
    omega

/-- The k-th internal_counter() call from a zeroed counter returns
(k-1) mod 2^64. -/
theorem callValue_eq (w : World) (hw : w.counter = 0) (k : Nat) :
    callValue w k = (k - 1) % U64 := by
  simp only [callValue, internal_counter, counterIter_counter w hw]
  simp only [U64]
  omega

/-! ### Claim theorems -/

/-- C1: every call to get() returns exactly
split_mix_64(cpu_counter() wrapping-add internal_counter()): the hardware
counter value and the process-sequence value are combined by wrapping
64-bit addition, the sum is passed through the mixer, and the result is a
deterministic function of those two input values (the right-hand side
mentions nothing but them). -/
theorem get_is_mixed_sum (w : World) :
    get w = (split_mix_64 ((w.cpuStream w.reads % U64 + w.counter % U64) % U64),
             { w with reads := w.reads + 1, counter := (w.counter + 1) % U64 }) :=
  rfl

/-- C2: the mixer is a pure deterministic function computing exactly the
SplitMix64 finalization step stated in the specification, pinned in
addition by the standard SplitMix64 test vector at input 0. -/
theorem split_mix_64_is_splitmix64 :
    (∀ x : Nat, split_mix_64 x = mixSpec x) ∧ split_mix_64 0 = 0xe220a8397b1dcdaf :=
  ⟨fun _ => rfl, by decide⟩

/-- C3: fill writes the first L bytes of the concatenation of the
little-endian 8-byte groups of the successive get() draws (the final chunk
truncated when L is not a multiple of 8), populating every byte, and for
the empty buffer it is a no-op that leaves the world untouched (so no
get() call happens and nothing fails). -/
theorem fill_writes_le_stream (buf : List Nat) (w : World) :
    (fill buf w).1 = (leStream w ((buf.length + 7) / 8)).take buf.length ∧
    (fill buf w).1.length = buf.length ∧
    fill ([] : List Nat) w = ([], w) :=
  ⟨fill_content buf.length buf w rfl, (fill_len_reads buf.length buf w rfl).1,
    fill_eq_empty w⟩

/-- C4: a next() request on any reachable Bytes state (position < 8)
always yields a byte, never none: when the position is 0 the buffer is
refilled with the little-endian bytes of a fresh get(), the returned byte
is the buffer byte at the old position, and the position advances modulo
8. -/
theorem next_yields_byte (b : Bytes) (w : World) (h : b.pos < 8) :
    b.next w = some (
      (if b.pos = 0 then leBuf (get w).1 else b.buf) ⟨b.pos, h⟩,
      { buf := (if b.pos = 0 then leBuf (get w).1 else b.buf),
        pos := (b.pos + 1) % 8 },
      (if b.pos = 0 then (get w).2 else w)) := by
  by_cases hp : b.pos = 0 <;>
    simp [Bytes.next, hp, land7_eq_mod8, h]

/-- Witness for C4 at a fresh instance and the concrete world w0. -/
theorem next_yields_byte_witness :
    Bytes.default.pos < 8 ∧
      Bytes.next Bytes.default w0 = some (
        (if Bytes.default.pos = 0 then leBuf (get w0).1 else Bytes.default.buf)
          ⟨Bytes.default.pos, by decide⟩,
        { buf := (if Bytes.default.pos = 0 then leBuf (get w0).1 else Bytes.default.buf),
          pos := (Bytes.default.pos + 1) % 8 },
        (if Bytes.default.pos = 0 then (get w0).2 else w0)) :=
  ⟨by decide, next_yields_byte Bytes.default w0 (by decide)⟩

/-- C5: duplicating a Bytes stream in any state (any position, any buffered
bytes) yields exactly a freshly constructed instance: position 0 and a
zeroed buffer; none of the original buffered bytes survive in the
duplicate. -/
theorem clone_is_fresh (b : Bytes) :
    Bytes.clone b = Bytes.default ∧ (Bytes.clone b).pos = 0 ∧
      ∀ i, (Bytes.clone b).buf i = 0 :=
  ⟨rfl, rfl, fun _ => rfl⟩

/-- C6 as stated is false: nth(1) from position 1 returns buffer byte 1,
while 2 sequential single-byte advances return buffer byte 2 (the buffer
holds 0,10,20,...,70, so the returned bytes are 10 versus 20). -/
theorem nth_skips_nothing_cex :
    (Bytes.nth bMid 1 w0).map (fun r => r.1)
      ≠ (Bytes.advance bMid w0 1).map (fun r => r.1) := by
  decide

/-- C6 amended: nth(n) ignores n; for every state, every n and every world
it returns exactly what a single single-byte advance (advance with zero
skipped bytes) returns, rather than the result of n+1 sequential
advances. -/
theorem nth_is_single_advance (b : Bytes) (n : Nat) (w : World) :
    Bytes.nth b n w = Bytes.advance b w 0 :=
  rfl

/-- C7: in a sequential run from process start (counter initialized to 0),
the k-th internal_counter() call (k counted from 1) returns (k-1) mod
2^64, and any two calls fewer than 2^64 calls apart return distinct
values. -/
theorem counter_sequence (w : World) (h0 : w.counter = 0) (k : Nat)
    (hk : 1 ≤ k) :
    callValue w k = (k - 1) % U64 ∧
    ∀ i j, 1 ≤ i → i < j → j - i < U64 → callValue w i ≠ callValue w j := by
  refine ⟨callValue_eq w h0 k, ?_⟩
  intro i j hi hij hdist
  rw [callValue_eq w h0 i, callValue_eq w h0 j]
  simp only [U64] at *
  omega

/-- Witness for C7 at the concrete world w0 and the third call. -/
theorem counter_sequence_witness :
    w0.counter = 0 ∧ 1 ≤ 3 ∧
      (callValue w0 3 = (3 - 1) % U64 ∧
        ∀ i j, 1 ≤ i → i < j → j - i < U64 → callValue w0 i ≠ callValue w0 j) :=
  ⟨rfl, by decide, counter_sequence w0 rfl 3 (by decide)⟩

/-- C8: split_mix_64 is a bijection on 64-bit words: distinct 64-bit inputs
yield distinct outputs, outputs are 64-bit words, and every 64-bit word is
reached. -/
theorem split_mix_64_bijection (x y : Nat) (hx : x < U64) (hy : y < U64)
    (hne : x ≠ y) :
    split_mix_64 x ≠ split_mix_64 y ∧ split_mix_64 x < U64 ∧
      ∃ z, z < U64 ∧ split_mix_64 z = y :=
  ⟨fun h => hne (split_mix_64_inj x y hx hy h), split_mix_64_lt x,
    split_mix_64_surj y hy⟩

/-- Witness for C8 at the concrete inputs 0 and 1. -/
theorem split_mix_64_bijection_witness :
    (0:Nat) < U64 ∧ (1:Nat) < U64 ∧ (0:Nat) ≠ 1 ∧
      (split_mix_64 0 ≠ split_mix_64 1 ∧ split_mix_64 0 < U64 ∧
        ∃ z, z < U64 ∧ split_mix_64 z = 1) :=
  ⟨by decide, by decide, by decide,
    split_mix_64_bijection 0 1 (by decide) (by decide) (by decide)⟩

/-- C9: fill is total and terminating on every finite buffer: it returns a
result for every input (it is a total function of this development), the
loop draws get() exactly ceil(L/8) times (observable as the world read
count, each iteration consuming min(8, remaining) bytes), and every byte
of the buffer is populated. -/
theorem fill_terminates (buf : List Nat) (w : World) :
    (fill buf w).1.length = buf.length ∧
    (fill buf w).2.reads = w.reads + (buf.length + 7) / 8 :=
  fill_len_reads buf.length buf w rfl

/-- C10: the cursor position invariant: a fresh instance and a duplicate
have position 0; from any state with position < 8, next() succeeds (the
8-byte buffer access is in bounds, so it never fails) and the new position
is (pos + 1) mod 8, which is again < 8. -/
theorem pos_invariant (b : Bytes) (w : World) (h : b.pos < 8) :
    Bytes.default.pos = 0 ∧ (Bytes.clone b).pos = 0 ∧
    (b.next w).isSome = true ∧
    ∀ x b2 w2, b.next w = some (x, b2, w2) →
      b2.pos = (b.pos + 1) % 8 ∧ b2.pos < 8 := by
  refine ⟨rfl, rfl, ?_, ?_⟩
  · simp [Bytes.next, h]
  · intro x b2 w2 heq
    simp only [Bytes.next, dif_pos h, Option.some.injEq, Prod.mk.injEq] at heq
    have hpos : b2.pos = (b.pos + 1) &&& 7 := by
      rw [← heq.2.1]
    rw [hpos, land7_eq_mod8]
    omega

/-- Witness for C10 at the concrete state bMid and world w0. -/
theorem pos_invariant_witness :
    bMid.pos < 8 ∧
      (Bytes.default.pos = 0 ∧ (Bytes.clone bMid).pos = 0 ∧
        (Bytes.next bMid w0).isSome = true ∧
        ∀ x b2 w2, Bytes.next bMid w0 = some (x, b2, w2) →
          b2.pos = (bMid.pos + 1) % 8 ∧ b2.pos < 8) :=
  ⟨by decide, pos_invariant bMid w0 (by decide)⟩
